import Mathlib

/-!
# Verification of the scaf template scaffolder's core pipeline

This file gives a shallow embedding of the core logic of `src/main.rs`:
tag parsing (`options_in_file`), tag stripping (`create_file`), discovery
(`read_files_from_path`), option filtering and conflict resolution
(`dedupe_files`), path re-rooting (`replace_file_paths`) and the
orchestration in `main`, together with theorems settling the spec claims.

Paths, file contents and option identifiers are modelled as `List Char`.
The tag regex `\x7b.+\x7d` (an opening brace, one or more non-newline
characters, a closing brace) is modelled by an explicit scanner with the
regex crate's leftmost-first semantics: the match starts at the first
opening brace from which a match is possible, and the greedy `.+` extends
the match to the last closing brace reachable without crossing a newline.
-/

namespace Scaf

/-- Paths, contents and option names are strings, modelled as `List Char`. -/
abbrev Str := List Char

/-! ## The greedy body of a match

`splitLastRB cs` models the greedy `.+\x7d` part of the tag regex applied at
the position just after an opening brace: it splits `cs` as
`body ++ '\x7d' :: rest` where the closing brace is the *last* one reachable
from the start of `cs` without crossing a newline (`.` does not match a
newline).  `none` means no closing brace is reachable, i.e. no match can
start at the opening brace just before `cs`.  A match additionally requires
`body ≠ []` (`.+` needs at least one character); callers check that. -/
def splitLastRB : Str → Option (Str × Str)
  | [] => none
  | c :: cs =>
    if c = '\n' then none
    else
      match splitLastRB cs with
      | some (body, rest) => some (c :: body, rest)
      | none => if c = '}' then some ([], cs) else none

/-- The part of a string before its first newline: the region `.` can scan. -/
def firstLine (s : Str) : Str := s.takeWhile fun c => c ≠ '\n'

theorem firstLine_cons_of_ne {c : Char} {cs : Str} (hnl : c ≠ '\n') :
    firstLine (c :: cs) = c :: firstLine cs := by
  simp [firstLine, List.takeWhile_cons, hnl]

theorem firstLine_cons_nl {cs : Str} : firstLine ('\n' :: cs) = [] := by
  simp [firstLine, List.takeWhile_cons]

theorem splitLastRB_eq_none {cs : Str} :
    splitLastRB cs = none ↔ '}' ∉ firstLine cs := by
  induction cs with
  | nil => simp [splitLastRB, firstLine]
  | cons c cs ih =>
    unfold splitLastRB
    by_cases hnl : c = '\n'
    · subst hnl
      simp [firstLine_cons_nl]
    · rw [if_neg hnl, firstLine_cons_of_ne hnl]
      cases h : splitLastRB cs with
      | some p =>
        obtain ⟨b, r⟩ := p
        have hmem : '}' ∈ firstLine cs := by
          by_contra hc
          rw [ih.mpr hc] at h
          cases h
        simp [hmem]
      | none =>
        have hnotmem : '}' ∉ firstLine cs := ih.mp h
        by_cases hrb : c = '}'
        · subst hrb
          simp
        · rw [if_neg hrb]
          simp only [List.mem_cons, not_or, true_iff]
          exact ⟨fun hc => hrb hc.symm, hnotmem⟩

theorem splitLastRB_eq_some {cs b r : Str} (h : splitLastRB cs = some (b, r)) :
    cs = b ++ '}' :: r ∧ '\n' ∉ b ∧ '}' ∉ firstLine r := by
  induction cs generalizing b r with
  | nil => cases h
  | cons c cs ih =>
    unfold splitLastRB at h
    by_cases hnl : c = '\n'
    · rw [if_pos hnl] at h
      cases h
    · rw [if_neg hnl] at h
      cases hrec : splitLastRB cs with
      | some p =>
        obtain ⟨b', r'⟩ := p
        rw [hrec] at h
        simp only [Option.some.injEq, Prod.mk.injEq] at h
        obtain ⟨hb, hr⟩ := h
        obtain ⟨hcs, hnlb, hrb⟩ := ih hrec
        subst hb hr
        refine ⟨by rw [hcs]; rfl, ?_, hrb⟩
        simp only [List.mem_cons, not_or]
        exact ⟨fun hc => hnl hc.symm, hnlb⟩
      | none =>
        rw [hrec] at h
        by_cases hrb : c = '}'
        · rw [if_pos hrb] at h
          simp only [Option.some.injEq, Prod.mk.injEq] at h
          obtain ⟨hb, hr⟩ := h
          subst hb hr
          subst hrb
          exact ⟨rfl, by simp, splitLastRB_eq_none.mp hrec⟩
        · rw [if_neg hrb] at h
          cases h

/-- Converse of `splitLastRB_eq_some`: a decomposition with a newline-free
body and no further reachable closing brace is exactly what the greedy
scanner returns. -/
theorem splitLastRB_of_decomp {b r : Str} (hnlb : '\n' ∉ b)
    (hrb : '}' ∉ firstLine r) : splitLastRB (b ++ '}' :: r) = some (b, r) := by
  induction b with
  | nil =>
    rw [List.nil_append]
    simp only [splitLastRB]
    rw [if_neg (by decide), splitLastRB_eq_none.mpr hrb]
    simp
  | cons c b ih =>
    have hc : c ≠ '\n' := fun hc => hnlb (hc ▸ List.mem_cons_self c b)
    have hb : '\n' ∉ b := fun hm => hnlb (List.mem_cons_of_mem c hm)
    rw [List.cons_append]
    simp only [splitLastRB]
    rw [if_neg hc, ih hb]

theorem splitLastRB_length {cs b r : Str} (h : splitLastRB cs = some (b, r)) :
    r.length < cs.length := by
  have := (splitLastRB_eq_some h).1
  subst this
  simp only [List.length_append, List.length_cons]
  omega

/-! ## Tag stripping: `re.replace_all(&path, "")`

`stripTags` models `RE.replace_all(path, "")` for the tag regex: scan left
to right; at each opening brace from which a match is possible (a reachable
closing brace with a nonempty body), delete the whole match (braces
included) and resume scanning after it; every other character is kept.
The recursion consumes a non-structural suffix, so it is written with a
fuel argument (`fuel ≥ length` always suffices) to keep it kernel-reducible. -/
def stripTagsF : Nat → Str → Str
  | 0, s => s
  | _ + 1, [] => []
  | fuel + 1, c :: cs =>
    if c = '{' then
      match splitLastRB cs with
      | some (body, rest) =>
        if body = [] then c :: stripTagsF fuel cs else stripTagsF fuel rest
      | none => c :: stripTagsF fuel cs
    else c :: stripTagsF fuel cs

/-- `replace_all` of the tag regex by the empty string, as applied to paths
in `create_file`. -/
def stripTags (s : Str) : Str := stripTagsF s.length s

theorem stripTagsF_fuel :
    ∀ (f₁ f₂ : Nat) (s : Str), s.length ≤ f₁ → s.length ≤ f₂ →
      stripTagsF f₁ s = stripTagsF f₂ s := by
  intro f₁
  induction f₁ with
  | zero =>
    intro f₂ s hs₁ _
    rw [Nat.le_zero, List.length_eq_zero] at hs₁
    subst hs₁
    cases f₂ <;> rfl
  | succ f₁ ih =>
    intro f₂ s hs₁ hs₂
    cases s with
    | nil => cases f₂ <;> rfl
    | cons c cs =>
      cases f₂ with
      | zero => simp at hs₂
      | succ f₂ =>
        simp only [List.length_cons, Nat.succ_le_succ_iff] at hs₁ hs₂
        simp only [stripTagsF]
        by_cases hc : c = '{'
        · rw [if_pos hc, if_pos hc]
          cases h : splitLastRB cs with
          | some p =>
            obtain ⟨b, r⟩ := p
            have hr : r.length ≤ f₁ := Nat.le_of_lt
              (Nat.lt_of_lt_of_le (splitLastRB_length h) hs₁)
            have hr₂ : r.length ≤ f₂ := Nat.le_of_lt
              (Nat.lt_of_lt_of_le (splitLastRB_length h) hs₂)
            by_cases hb : b = []
            · simp [hb, ih f₂ cs hs₁ hs₂]
            · simp [hb, ih f₂ r hr hr₂]
          | none => rw [ih f₂ cs hs₁ hs₂]
        · rw [if_neg hc, if_neg hc, ih f₂ cs hs₁ hs₂]

theorem stripTags_nil : stripTags [] = [] := rfl

theorem stripTags_cons_of_ne {c : Char} (cs : Str) (hc : c ≠ '{') :
    stripTags (c :: cs) = c :: stripTags cs := by
  simp only [stripTags, List.length_cons, stripTagsF, if_neg hc]

theorem stripTags_cons_none {cs : Str} (h : splitLastRB cs = none) :
    stripTags ('{' :: cs) = '{' :: stripTags cs := by
  simp only [stripTags, List.length_cons, stripTagsF, if_pos rfl, h]
  simp

theorem stripTags_cons_empty {cs r : Str} (h : splitLastRB cs = some ([], r)) :
    stripTags ('{' :: cs) = '{' :: stripTags cs := by
  simp only [stripTags, List.length_cons, stripTagsF, if_pos rfl, h, if_pos rfl]
  simp

theorem stripTags_cons_match {cs b r : Str} (h : splitLastRB cs = some (b, r))
    (hb : b ≠ []) : stripTags ('{' :: cs) = stripTags r := by
  have hr : r.length ≤ cs.length := Nat.le_of_lt (splitLastRB_length h)
  simp only [stripTags, List.length_cons, stripTagsF, if_pos rfl, h, if_neg hb]
  exact stripTagsF_fuel cs.length r.length r hr (Nat.le_refl _)

/-! ## The tag parser: `options_in_file` -/

/-- Whether the tag regex has a match starting exactly at an opening brace
followed by `cs`: the greedy scan must find a closing brace and the body
must be nonempty (`.+`). -/
def tagStart (cs : Str) : Bool :=
  match splitLastRB cs with
  | some (body, _) => !body.isEmpty
  | none => false

/-- Whether the tag regex `\x7b.+\x7d` matches anywhere in `s`
(`RE.is_match` semantics; the source only ever asks for the first match or
replaces all matches, but this predicate characterises "the path contains a
tag group"). -/
def hasTag : Str → Bool
  | [] => false
  | c :: cs => if c = '{' then (tagStart cs || hasTag cs) else hasTag cs

/-- The first (leftmost) match of the tag regex in `s`, braces included:
models `RE.captures(path)` in `options_in_file` (the regex has no capture
groups, so the only capture is the whole match). -/
def findCaps : Str → Option Str
  | [] => none
  | c :: cs =>
    if c = '{' then
      match splitLastRB cs with
      | some (body, _) =>
        if body = [] then findCaps cs else some ('{' :: (body ++ ['}']))
      | none => findCaps cs
    else findCaps cs

/-- `c == '\x7b' || c == '\x7d'`: the predicate of
`trim_matches(|c| c == '\x7b' || c == '\x7d')`. -/
def isBrace (c : Char) : Bool := c = '{' || c = '}'

/-- Rust `str::trim_matches`: remove every leading and trailing brace. -/
def trimBraces (s : Str) : Str :=
  ((s.dropWhile isBrace).reverse.dropWhile isBrace).reverse

/-- Rust `str::split(',')`: the raw substrings between commas; on an empty
string this is a single empty token, and it never returns an empty list. -/
def splitComma : Str → List Str
  | [] => [[]]
  | c :: cs =>
    if c = ',' then [] :: splitComma cs
    else
      match splitComma cs with
      | t :: ts => (c :: t) :: ts
      | [] => [[c]]

/-- `options_in_file` from the source: take the first match of the tag
regex, trim braces from both of its ends, split on commas, and collect the
tokens into a set.  The source stores the set in a `HashSet` and then in a
`Vec` in arbitrary order; the model uses `List.dedup`, which has the same
members and the same number of elements. -/
def options_in_file (p : Str) : List Str :=
  match findCaps p with
  | none => []
  | some m => (splitComma (trimBraces m)).dedup

/-! ## Idempotence of tag stripping -/

/-- Everything from the first newline on: the complement of `firstLine`. -/
def restLine (s : Str) : Str := s.dropWhile fun c => c ≠ '\n'

theorem firstLine_append_restLine (s : Str) : firstLine s ++ restLine s = s := by
  unfold firstLine restLine
  exact List.takeWhile_append_dropWhile _ _

theorem firstLine_no_nl {s : Str} : '\n' ∉ firstLine s := by
  induction s with
  | nil => simp [firstLine]
  | cons c cs ih =>
    by_cases hnl : c = '\n'
    · subst hnl
      rw [firstLine_cons_nl]
      simp
    · rw [firstLine_cons_of_ne hnl]
      simp only [List.mem_cons, not_or]
      exact ⟨fun hc => hnl hc.symm, ih⟩

theorem firstLine_append_of_nlFree {u : Str} (w : Str) (hnl : '\n' ∉ u) :
    firstLine (u ++ w) = u ++ firstLine w := by
  induction u with
  | nil => rfl
  | cons c u ih =>
    have hc : c ≠ '\n' := fun hc => hnl (hc ▸ List.mem_cons_self c u)
    have hu : '\n' ∉ u := fun hm => hnl (List.mem_cons_of_mem c hm)
    rw [List.cons_append, firstLine_cons_of_ne hc, ih hu, List.cons_append]

theorem firstLine_eq_self {u : Str} (hnl : '\n' ∉ u) : firstLine u = u := by
  have hemp : firstLine ([] : Str) = [] := rfl
  have := firstLine_append_of_nlFree [] hnl
  rw [List.append_nil, hemp, List.append_nil] at this
  exact this

theorem dropWhile_head_false {p : Char → Bool} {l : Str} {x : Char} {xs : Str}
    (h : l.dropWhile p = x :: xs) : p x = false := by
  induction l with
  | nil => cases h
  | cons c l ih =>
    rw [List.dropWhile_cons] at h
    by_cases hc : p c
    · rw [if_pos hc] at h
      exact ih h
    · rw [if_neg hc] at h
      cases h
      exact Bool.not_eq_true _ ▸ (by simpa using hc)

/-- On a newline-free string whose tail has no closing brace, no match can
start anywhere, so `replace_all` keeps it unchanged. -/
theorem stripTags_eq_self_of_line {u : Str} (hnl : '\n' ∉ u)
    (hrb : '}' ∉ u.tail) : stripTags u = u := by
  induction u with
  | nil => rfl
  | cons c u ih =>
    have hnl' : '\n' ∉ u := fun h => hnl (List.mem_cons_of_mem c h)
    have hrb' : '}' ∉ u := hrb
    have hrbt : '}' ∉ u.tail := fun h => hrb' (List.mem_of_mem_tail h)
    by_cases hc : c = '{'
    · subst hc
      have hnone : splitLastRB u = none := splitLastRB_eq_none.mpr (by
        rw [firstLine_eq_self hnl']
        exact hrb')
      rw [stripTags_cons_none hnone, ih hnl' hrbt]
    · rw [stripTags_cons_of_ne u hc, ih hnl' hrbt]

/-- Stripping walks over a first line in which no match can start, then
past the newline, and continues in the remainder. -/
theorem stripTags_line_append {u v : Str} (hnl : '\n' ∉ u) (hrb : '}' ∉ u.tail) :
    stripTags (u ++ '\n' :: v) = u ++ '\n' :: stripTags v := by
  induction u with
  | nil =>
    rw [List.nil_append, stripTags_cons_of_ne _ (by decide), List.nil_append]
  | cons c u ih =>
    have hnl' : '\n' ∉ u := fun h => hnl (List.mem_cons_of_mem c h)
    have hrb' : '}' ∉ u := hrb
    have hrbt : '}' ∉ u.tail := fun h => hrb' (List.mem_of_mem_tail h)
    rw [List.cons_append]
    by_cases hc : c = '{'
    · subst hc
      have hfl : '}' ∉ firstLine (u ++ '\n' :: v) := by
        rw [firstLine_append_of_nlFree _ hnl', firstLine_cons_nl, List.append_nil]
        exact hrb'
      rw [stripTags_cons_none (splitLastRB_eq_none.mpr hfl), ih hnl' hrbt,
        List.cons_append]
    · rw [stripTags_cons_of_ne _ hc, ih hnl' hrbt, List.cons_append]

theorem tagStart_eq_false_iff {cs : Str} :
    tagStart cs = false ↔ '}' ∉ (firstLine cs).tail := by
  unfold tagStart
  cases h : splitLastRB cs with
  | none =>
    have hne := splitLastRB_eq_none.mp h
    exact iff_of_true rfl fun hm => hne (List.mem_of_mem_tail hm)
  | some p =>
    obtain ⟨b, r⟩ := p
    obtain ⟨hcs, hnlb, hrbr⟩ := splitLastRB_eq_some h
    subst hcs
    cases b with
    | nil =>
      rw [List.nil_append, firstLine_cons_of_ne (by decide), List.tail_cons]
      exact iff_of_true (by simp) hrbr
    | cons x b =>
      have hx : x ≠ '\n' := fun hh => hnlb (hh ▸ List.mem_cons_self x b)
      have hb : '\n' ∉ b := fun hm => hnlb (List.mem_cons_of_mem x hm)
      have hfl : firstLine ((x :: b) ++ '}' :: r) = x :: (b ++ '}' :: firstLine r) := by
        rw [List.cons_append, firstLine_cons_of_ne hx,
          firstLine_append_of_nlFree _ hb, firstLine_cons_of_ne (by decide)]
      rw [hfl, List.tail_cons]
      refine iff_of_false (by simp) ?_
      simp only [not_not]
      exact List.mem_append_right b (List.mem_cons_self _ _)

/-- A first line in which no match can start stays match-free after
`replace_all`: replaced chunks never contain a newline, so the first line
of the output is the first line of the input. -/
theorem tagStart_stripTags {cs : Str} (h : tagStart cs = false) :
    tagStart (stripTags cs) = false := by
  rw [tagStart_eq_false_iff] at h ⊢
  have hdec := firstLine_append_restLine cs
  cases hd : restLine cs with
  | nil =>
    rw [hd, List.append_nil] at hdec
    have hnl : '\n' ∉ cs := fun hm => firstLine_no_nl (by rw [hdec]; exact hm)
    have hrb : '}' ∉ cs.tail := by rw [← hdec]; exact h
    rw [stripTags_eq_self_of_line hnl hrb]
    exact h
  | cons d v =>
    have hdnl : d = '\n' := by
      have hdf := dropWhile_head_false (p := fun c => c ≠ '\n') (l := cs) hd
      simpa using hdf
    subst hdnl
    have hst : stripTags cs = firstLine cs ++ '\n' :: stripTags v := by
      conv_lhs => rw [← hdec, hd]
      exact stripTags_line_append firstLine_no_nl h
    rw [hst, firstLine_append_of_nlFree _ firstLine_no_nl, firstLine_cons_nl,
      List.append_nil]
    exact h

theorem hasTag_brace (cs : Str) : hasTag ('{' :: cs) = (tagStart cs || hasTag cs) := by
  simp [hasTag]

theorem hasTag_cons_of_ne {c : Char} (cs : Str) (hc : c ≠ '{') :
    hasTag (c :: cs) = hasTag cs := by
  simp [hasTag, hc]

theorem tagStart_of_none {cs : Str} (h : splitLastRB cs = none) :
    tagStart cs = false := by
  unfold tagStart
  rw [h]

theorem tagStart_of_empty {cs r : Str} (h : splitLastRB cs = some ([], r)) :
    tagStart cs = false := by
  unfold tagStart
  rw [h]
  rfl

theorem hasTag_stripTagsAux :
    ∀ (n : Nat) (s : Str), s.length ≤ n → hasTag (stripTags s) = false := by
  intro n
  induction n with
  | zero =>
    intro s hs
    rw [Nat.le_zero, List.length_eq_zero] at hs
    subst hs
    rfl
  | succ n ih =>
    intro s hs
    cases s with
    | nil => rfl
    | cons c cs =>
      simp only [List.length_cons, Nat.succ_le_succ_iff] at hs
      by_cases hc : c = '{'
      · subst hc
        cases h : splitLastRB cs with
        | none =>
          rw [stripTags_cons_none h, hasTag_brace, Bool.or_eq_false_iff]
          exact ⟨tagStart_stripTags (tagStart_of_none h), ih cs hs⟩
        | some p =>
          obtain ⟨b, r⟩ := p
          by_cases hb : b = []
          · subst hb
            rw [stripTags_cons_empty h, hasTag_brace, Bool.or_eq_false_iff]
            exact ⟨tagStart_stripTags (tagStart_of_empty h), ih cs hs⟩
          · rw [stripTags_cons_match h hb]
            exact ih r (Nat.le_of_lt (Nat.lt_of_lt_of_le (splitLastRB_length h) hs))
      · rw [stripTags_cons_of_ne cs hc, hasTag_cons_of_ne _ hc]
        exact ih cs hs

/-- The output of `replace_all` contains no further match of the tag regex. -/
theorem hasTag_stripTags (s : Str) : hasTag (stripTags s) = false :=
  hasTag_stripTagsAux s.length s (Nat.le_refl _)

theorem findCaps_brace_none {cs : Str} (h : splitLastRB cs = none) :
    findCaps ('{' :: cs) = findCaps cs := by
  simp [findCaps, h]

theorem findCaps_brace_empty {cs r : Str} (h : splitLastRB cs = some ([], r)) :
    findCaps ('{' :: cs) = findCaps cs := by
  simp [findCaps, h]

theorem findCaps_brace_match {cs b r : Str} (h : splitLastRB cs = some (b, r))
    (hb : b ≠ []) : findCaps ('{' :: cs) = some ('{' :: (b ++ ['}'])) := by
  simp [findCaps, h, hb]

theorem findCaps_cons_of_ne {c : Char} (cs : Str) (hc : c ≠ '{') :
    findCaps (c :: cs) = findCaps cs := by
  simp [findCaps, hc]

/-- On a string the tag regex does not match, `replace_all` is the identity. -/
theorem stripTags_eq_self_of_not_hasTag {s : Str} (h : hasTag s = false) :
    stripTags s = s := by
  induction s with
  | nil => rfl
  | cons c cs ih =>
    by_cases hc : c = '{'
    · subst hc
      rw [hasTag_brace, Bool.or_eq_false_iff] at h
      obtain ⟨h1, h2⟩ := h
      unfold tagStart at h1
      cases hh : splitLastRB cs with
      | none => rw [stripTags_cons_none hh, ih h2]
      | some p =>
        obtain ⟨b, r⟩ := p
        rw [hh] at h1
        have hb : b = [] := by
          cases b with
          | nil => rfl
          | cons x xs => simp [List.isEmpty] at h1
        subst hb
        rw [stripTags_cons_empty hh, ih h2]
    · rw [hasTag_cons_of_ne _ hc] at h
      rw [stripTags_cons_of_ne cs hc, ih h]

/-- When the regex does not match, `captures` is `None`. -/
theorem findCaps_eq_none_of_not_hasTag {s : Str} (h : hasTag s = false) :
    findCaps s = none := by
  induction s with
  | nil => rfl
  | cons c cs ih =>
    by_cases hc : c = '{'
    · subst hc
      rw [hasTag_brace, Bool.or_eq_false_iff] at h
      obtain ⟨h1, h2⟩ := h
      unfold tagStart at h1
      cases hh : splitLastRB cs with
      | none => rw [findCaps_brace_none hh]; exact ih h2
      | some p =>
        obtain ⟨b, r⟩ := p
        rw [hh] at h1
        have hb : b = [] := by
          cases b with
          | nil => rfl
          | cons x xs => simp [List.isEmpty] at h1
        subst hb
        rw [findCaps_brace_empty hh]
        exact ih h2
    · rw [findCaps_cons_of_ne _ hc]
      exact ih (by rwa [hasTag_cons_of_ne _ hc] at h)

/-! ## The data model and the discovery stage -/

/-- The `File` struct of the source: stored path (already tag-stripped by
`create_file`), verbatim contents, and the parsed option set.  Equality is
structural, as derived by `PartialEq/Eq/Hash` in the source. -/
structure File where
  path : Str
  contents : Str
  depends_on : List Str
deriving DecidableEq, Repr

/-- The fatal error kinds of §7 of the spec, as surfaced by
`process::exit(1)` (or a panic) in the source.  `ambiguousConflict` carries
the path printed in the error message. -/
inductive ScafErr where
  | pathNotFound
  | configError
  | outputNotEmpty
  | ambiguousConflict (path : Str)
  | pathError
deriving DecidableEq, Repr

/-- `create_file` from the source: strip every regex match from the path
and store the contents verbatim.  File reading is modelled by passing the
contents in (the source reads them from disk at this point). -/
def create_file (path : Str) (contents : Str) (options : List Str) : File :=
  { path := stripTags path, contents := contents, depends_on := options }

/-- Rust `str::contains`: substring containment. -/
def containsSub (needle : Str) : Str → Bool
  | [] => needle.isEmpty
  | c :: cs => needle.isPrefixOf (c :: cs) || containsSub needle cs

/-- The config file name checked by `path.contains("scaf.toml")`. -/
def scafToml : Str := "scaf.toml".toList

/-- `read_files_from_path`: the directory entries (modelled as pairs of a
full path and the file's contents; entries whose read fails are logged and
skipped by the source, so they simply do not appear here) are turned into
`File`s, skipping every path that contains `scaf.toml` as a substring. -/
def read_files_from_path (entries : List (Str × Str)) : List File :=
  entries.filterMap fun e =>
    if containsSub scafToml e.1 then none
    else some (create_file e.1 e.2 (options_in_file e.1))

/-! ## Filtering and conflict resolution: `dedupe_files` -/

/-- The filter at the top of `dedupe_files`: keep the records whose every
dependency is among the chosen options. -/
def filterStage (files : List File) (chosen : List Str) : List File :=
  files.filter fun f => f.depends_on.all fun o => chosen.contains o

/-- The records of `all` at output path `p`: the `dups` list computed for a
record with path `p` inside the loop of `dedupe_files` (the source collects
indexes and then maps them back to records; the result is this filter, in
the same order). -/
def groupOf (all : List File) (p : Str) : List File :=
  all.filter fun f2 => p == f2.path

/-- `dups.iter().map(|a| a.depends_on.len()).max().unwrap()`, with `0` for
the (never occurring) empty list instead of a panic. -/
def maxSpec (l : List File) : Nat :=
  (l.map fun a => a.depends_on.length).foldr max 0

/-- The `maxes` list of the loop: the records of the group whose
`depends_on` size attains the maximum. -/
def maxesOf (all : List File) (p : Str) : List File :=
  (groupOf all p).filter fun i => i.depends_on.length == maxSpec (groupOf all p)

/-- `HashSet::insert` on the accumulated result set, with the set modelled
as a duplicate-free list. -/
def insertFile (f : File) (s : List File) : List File :=
  if f ∈ s then s else s ++ [f]

/-- One iteration of the loop in `dedupe_files`, for the record `f`, over
the filtered collection `all` and the accumulator `acc`.  `maxes[0]` is
modelled as `headD f`; the branch using it has a nonempty `maxes` whenever
`f ∈ all`, so the default is never the result (the source would panic on an
empty `maxes`). -/
def dedupeStep (all acc : List File) (f : File) : Except ScafErr (List File) :=
  if (groupOf all f.path).length > 1 then
    if (maxesOf all f.path).length > 1 then
      .error (.ambiguousConflict ((maxesOf all f.path).headD f).path)
    else .ok (insertFile ((maxesOf all f.path).headD f) acc)
  else .ok (insertFile f acc)

/-- The record (if any) that the iteration for `f` inserts into the result
set; `none` exactly when the iteration aborts the run. -/
def stepWinner (all : List File) (f : File) : Option File :=
  if (groupOf all f.path).length > 1 then
    if (maxesOf all f.path).length > 1 then none
    else some ((maxesOf all f.path).headD f)
  else some f

/-- The loop of `dedupe_files`: iterate over the filtered records, aborting
on the first ambiguity. -/
def dedupeFold (all : List File) : List File → List File → Except ScafErr (List File)
  | [], acc => .ok acc
  | f :: fs, acc =>
    match dedupeStep all acc f with
    | .error e => .error e
    | .ok acc' => dedupeFold all fs acc'

/-- `dedupe_files` from the source: filter by chosen options, then resolve
duplicate output paths, returning the deduplicated set or aborting with
`AmbiguousConflict`. -/
def dedupe_files (files : List File) (chosen : List Str) :
    Except ScafErr (List File) :=
  dedupeFold (filterStage files chosen) (filterStage files chosen) []

/-! ## Path re-rooting and orchestration -/

/-- `Path::strip_prefix` followed by re-rooting, for one record
(`replace_file_paths` body).  Path components are modelled as plain
strings: the template-root prefix is removed together with a following
separator, and the remainder is joined under the output root with a `/`.
The source panics when the prefix does not match; per §7 this surfaces as
`PathError`. -/
def replaceOnePath (tmplRoot outRoot : Str) (f : File) : Except ScafErr File :=
  if tmplRoot.isPrefixOf f.path then
    .ok { f with path :=
      outRoot ++ '/' :: ((f.path.drop tmplRoot.length).dropWhile fun c => c = '/') }
  else .error .pathError

/-- `replace_file_paths`: re-root every record. -/
def replace_file_paths (tmplRoot outRoot : Str) :
    List File → Except ScafErr (List File)
  | [] => .ok []
  | f :: fs =>
    match replaceOnePath tmplRoot outRoot f, replace_file_paths tmplRoot outRoot fs with
    | .ok g, .ok gs => .ok (g :: gs)
    | .error e, _ => .error e
    | .ok _, .error e => .error e

/-- The orchestration of `main`, with the external collaborators as
parameters: whether the template path exists, whether the config loads
(`Config::from_base`), the discovered directory entries, the options chosen
through the prompt, and the state of the output directory (`none` = absent,
in which case the source creates it and proceeds; `some l` = present with
entries `l`).  The returned list is what `write_files` then writes; every
error aborts the run with exit code 1 before anything is written. -/
def runScaf (templateExists configOk : Bool) (entries : List (Str × Str))
    (chosen : List Str) (outDir : Option (List Str)) (tmplRoot outRoot : Str) :
    Except ScafErr (List File) :=
  if templateExists = false then .error .pathNotFound
  else if configOk = false then .error .configError
  else
    match dedupe_files (read_files_from_path entries) chosen with
    | .error e => .error e
    | .ok deduped =>
      match outDir with
      | some l =>
        if l.length ≠ 0 then .error .outputNotEmpty
        else replace_file_paths tmplRoot outRoot deduped
      | none => replace_file_paths tmplRoot outRoot deduped

/-- The files `write_files` writes for a given run outcome: `main` exits
before reaching `write_files` on any error, so a failed run writes
nothing. -/
def writtenFiles (r : Except ScafErr (List File)) : List File :=
  match r with
  | .ok fs => fs
  | .error _ => []

/-- The process exit code of a run: 1 on any fatal error, 0 on success. -/
def exitCode (r : Except ScafErr (List File)) : Nat :=
  match r with
  | .ok _ => 0
  | .error _ => 1

/-! ## Lemmas about the conflict-resolution loop -/

theorem mem_insertFile {x w : File} {s : List File} :
    x ∈ insertFile w s ↔ x ∈ s ∨ x = w := by
  unfold insertFile
  by_cases hw : w ∈ s
  · rw [if_pos hw]
    constructor
    · exact Or.inl
    · rintro (hx | rfl)
      · exact hx
      · exact hw
  · rw [if_neg hw]
    simp [List.mem_append]

theorem mem_groupOf {all : List File} {p : Str} {x : File} :
    x ∈ groupOf all p ↔ x ∈ all ∧ x.path = p := by
  unfold groupOf
  rw [List.mem_filter]
  constructor
  · rintro ⟨hx, hp⟩
    exact ⟨hx, (beq_iff_eq.mp hp).symm⟩
  · rintro ⟨hx, hp⟩
    exact ⟨hx, beq_iff_eq.mpr hp.symm⟩

theorem self_mem_groupOf {all : List File} {f : File} (h : f ∈ all) :
    f ∈ groupOf all f.path :=
  mem_groupOf.mpr ⟨h, rfl⟩

theorem maxSpec_le {l : List File} {g : File} (h : g ∈ l) :
    g.depends_on.length ≤ maxSpec l := by
  induction l with
  | nil => cases h
  | cons a l ih =>
    unfold maxSpec at *
    rw [List.map_cons, List.foldr_cons]
    rcases List.mem_cons.mp h with rfl | hmem
    · exact Nat.le_max_left _ _
    · exact Nat.le_trans (ih hmem) (Nat.le_max_right _ _)

theorem maxSpec_mem {l : List File} (h : l ≠ []) :
    ∃ g ∈ l, g.depends_on.length = maxSpec l := by
  induction l with
  | nil => exact absurd rfl h
  | cons a l ih =>
    cases l with
    | nil =>
      refine ⟨a, List.mem_cons_self a [], ?_⟩
      unfold maxSpec
      simp
    | cons b l' =>
      obtain ⟨g, hg, hglen⟩ := ih (by simp)
      have hms : maxSpec (a :: b :: l') = max a.depends_on.length (maxSpec (b :: l')) := by
        unfold maxSpec
        rw [List.map_cons, List.foldr_cons]
      rcases Nat.le_total (maxSpec (b :: l')) a.depends_on.length with h1 | h1
      · exact ⟨a, List.mem_cons_self _ _, by rw [hms, Nat.max_eq_left h1]⟩
      · exact ⟨g, List.mem_cons_of_mem a hg, by rw [hms, Nat.max_eq_right h1, hglen]⟩

theorem mem_maxesOf {all : List File} {p : Str} {x : File} :
    x ∈ maxesOf all p ↔
      x ∈ groupOf all p ∧ x.depends_on.length = maxSpec (groupOf all p) := by
  unfold maxesOf
  rw [List.mem_filter]
  constructor
  · rintro ⟨hx, hlen⟩
    exact ⟨hx, beq_iff_eq.mp hlen⟩
  · rintro ⟨hx, hlen⟩
    exact ⟨hx, beq_iff_eq.mpr hlen⟩

theorem maxesOf_ne_nil {all : List File} {p : Str} (h : groupOf all p ≠ []) :
    maxesOf all p ≠ [] := by
  obtain ⟨g, hg, hglen⟩ := maxSpec_mem h
  intro hnil
  exact absurd (hnil ▸ mem_maxesOf.mpr ⟨hg, hglen⟩) (List.not_mem_nil g)

theorem headD_mem {l : List File} (d : File) (h : l ≠ []) : l.headD d ∈ l := by
  cases l with
  | nil => exact absurd rfl h
  | cons a l => exact List.mem_cons_self a l

theorem headD_ne_nil_eq {l : List File} (d₁ d₂ : File) (h : l ≠ []) :
    l.headD d₁ = l.headD d₂ := by
  cases l with
  | nil => exact absurd rfl h
  | cons a l => rfl

theorem mem_of_length_le_one {l : List File} {a b : File} (ha : a ∈ l)
    (hb : b ∈ l) (hlen : l.length ≤ 1) : a = b := by
  cases l with
  | nil => cases ha
  | cons x l =>
    cases l with
    | nil =>
      rcases List.mem_cons.mp ha with rfl | h
      · rcases List.mem_cons.mp hb with rfl | h'
        · rfl
        · cases h'
      · cases h
    | cons y l' => simp at hlen

theorem dedupeStep_ok {all acc : List File} {f : File} {acc' : List File}
    (h : dedupeStep all acc f = .ok acc') :
    ∃ w, stepWinner all f = some w ∧ acc' = insertFile w acc := by
  unfold dedupeStep at h
  unfold stepWinner
  by_cases hg : (groupOf all f.path).length > 1
  · by_cases hm : (maxesOf all f.path).length > 1
    · rw [if_pos hg, if_pos hm] at h
      cases h
    · rw [if_pos hg, if_neg hm] at h
      rw [if_pos hg, if_neg hm]
      injection h with h
      exact ⟨_, rfl, h.symm⟩
  · rw [if_neg hg] at h
    rw [if_neg hg]
    injection h with h
    exact ⟨f, rfl, h.symm⟩

theorem dedupeStep_err {all acc : List File} {f : File} {e : ScafErr}
    (h : dedupeStep all acc f = .error e) :
    stepWinner all f = none ∧
      e = .ambiguousConflict ((maxesOf all f.path).headD f).path ∧
      (groupOf all f.path).length > 1 ∧ (maxesOf all f.path).length > 1 := by
  unfold dedupeStep at h
  unfold stepWinner
  by_cases hg : (groupOf all f.path).length > 1
  · by_cases hm : (maxesOf all f.path).length > 1
    · rw [if_pos hg, if_pos hm] at h
      rw [if_pos hg, if_pos hm]
      injection h with h
      exact ⟨rfl, h.symm, hg, hm⟩
    · rw [if_pos hg, if_neg hm] at h
      cases h
  · rw [if_neg hg] at h
    cases h

theorem dedupeStep_of_winner {all acc : List File} {f w : File}
    (h : stepWinner all f = some w) :
    dedupeStep all acc f = .ok (insertFile w acc) := by
  unfold stepWinner at h
  unfold dedupeStep
  by_cases hg : (groupOf all f.path).length > 1
  · by_cases hm : (maxesOf all f.path).length > 1
    · rw [if_pos hg, if_pos hm] at h
      cases h
    · rw [if_pos hg, if_neg hm] at h
      rw [if_pos hg, if_neg hm]
      injection h with h
      rw [h]
  · rw [if_neg hg] at h
    rw [if_neg hg]
    injection h with h
    rw [h]

theorem stepWinner_path {all : List File} {f w : File} (hf : f ∈ all)
    (h : stepWinner all f = some w) : w.path = f.path := by
  unfold stepWinner at h
  by_cases hg : (groupOf all f.path).length > 1
  · by_cases hm : (maxesOf all f.path).length > 1
    · rw [if_pos hg, if_pos hm] at h
      cases h
    · rw [if_pos hg, if_neg hm] at h
      injection h with h
      have hgne : groupOf all f.path ≠ [] :=
        fun hnil => absurd (self_mem_groupOf hf) (by rw [hnil]; exact List.not_mem_nil f)
      have hw : w ∈ maxesOf all f.path := h ▸ headD_mem f (maxesOf_ne_nil hgne)
      exact (mem_groupOf.mp (mem_maxesOf.mp hw).1).2
  · rw [if_neg hg] at h
    injection h with h
    rw [h]

theorem stepWinner_mem {all : List File} {f w : File} (hf : f ∈ all)
    (h : stepWinner all f = some w) : w ∈ all := by
  unfold stepWinner at h
  by_cases hg : (groupOf all f.path).length > 1
  · by_cases hm : (maxesOf all f.path).length > 1
    · rw [if_pos hg, if_pos hm] at h
      cases h
    · rw [if_pos hg, if_neg hm] at h
      injection h with h
      have hgne : groupOf all f.path ≠ [] :=
        fun hnil => absurd (self_mem_groupOf hf) (by rw [hnil]; exact List.not_mem_nil f)
      have hw : w ∈ maxesOf all f.path := h ▸ headD_mem f (maxesOf_ne_nil hgne)
      exact (mem_groupOf.mp (mem_maxesOf.mp hw).1).1
  · rw [if_neg hg] at h
    injection h with h
    rw [← h]
    exact hf

theorem stepWinner_det {all : List File} {f₁ f₂ : File} (h₁ : f₁ ∈ all)
    (h₂ : f₂ ∈ all) (hp : f₁.path = f₂.path) :
    stepWinner all f₁ = stepWinner all f₂ := by
  unfold stepWinner
  rw [hp]
  by_cases hg : (groupOf all f₂.path).length > 1
  · by_cases hm : (maxesOf all f₂.path).length > 1
    · simp only [if_pos hg, if_pos hm]
    · simp only [if_pos hg, if_neg hm]
      have hgne : groupOf all f₂.path ≠ [] :=
        fun hnil => absurd (self_mem_groupOf h₂) (by rw [hnil]; exact List.not_mem_nil f₂)
      rw [headD_ne_nil_eq f₁ f₂ (maxesOf_ne_nil hgne)]
  · simp only [if_neg hg]
    have hf₁ : f₁ ∈ groupOf all f₂.path := mem_groupOf.mpr ⟨h₁, hp⟩
    have hf₂ : f₂ ∈ groupOf all f₂.path := self_mem_groupOf h₂
    rw [mem_of_length_le_one hf₁ hf₂ (Nat.le_of_not_lt hg)]

/-- Membership in a successful run of the loop: exactly the initial
accumulator plus the winner of each processed record. -/
theorem dedupeFold_ok_mem {all : List File} :
    ∀ (fs acc out : List File), dedupeFold all fs acc = .ok out →
      ∀ x, x ∈ out ↔ x ∈ acc ∨ ∃ f, f ∈ fs ∧ stepWinner all f = some x := by
  intro fs
  induction fs with
  | nil =>
    intro acc out h x
    injection h with h
    subst h
    simp
  | cons f fs ih =>
    intro acc out h x
    unfold dedupeFold at h
    cases hst : dedupeStep all acc f with
    | error e =>
      rw [hst] at h
      cases h
    | ok acc' =>
      rw [hst] at h
      obtain ⟨w, hw, hacc⟩ := dedupeStep_ok hst
      subst hacc
      rw [ih _ out h x, mem_insertFile]
      constructor
      · rintro ((hx | rfl) | ⟨g, hg, hwin⟩)
        · exact Or.inl hx
        · exact Or.inr ⟨f, List.mem_cons_self f fs, hw⟩
        · exact Or.inr ⟨g, List.mem_cons_of_mem f hg, hwin⟩
      · rintro (hx | ⟨g, hg, hwin⟩)
        · exact Or.inl (Or.inl hx)
        · rcases List.mem_cons.mp hg with rfl | hg'
          · rw [hw] at hwin
            injection hwin with hwin
            exact Or.inl (Or.inr hwin.symm)
          · exact Or.inr ⟨g, hg', hwin⟩

/-- In a successful run of the loop, every processed record had a winner
(no iteration hit the ambiguity abort). -/
theorem dedupeFold_ok_winner {all : List File} :
    ∀ (fs acc out : List File), dedupeFold all fs acc = .ok out →
      ∀ f ∈ fs, stepWinner all f ≠ none := by
  intro fs
  induction fs with
  | nil =>
    intro acc out _ f hf
    cases hf
  | cons g fs ih =>
    intro acc out h f hf
    unfold dedupeFold at h
    cases hst : dedupeStep all acc g with
    | error e =>
      rw [hst] at h
      cases h
    | ok acc' =>
      rw [hst] at h
      rcases List.mem_cons.mp hf with rfl | hf'
      · obtain ⟨w, hw, _⟩ := dedupeStep_ok hst
        rw [hw]
        exact fun hc => Option.noConfusion hc
      · exact ih _ out h f hf'

/-- A failed run of the loop comes from the ambiguity abort of one of the
processed records, and the reported path is that record's output path. -/
theorem dedupeFold_err {all : List File} :
    ∀ (fs acc : List File) (e : ScafErr), dedupeFold all fs acc = .error e →
      ∃ f, f ∈ fs ∧ stepWinner all f = none ∧
        e = .ambiguousConflict ((maxesOf all f.path).headD f).path ∧
        (groupOf all f.path).length > 1 ∧ (maxesOf all f.path).length > 1 := by
  intro fs
  induction fs with
  | nil =>
    intro acc e h
    cases h
  | cons g fs ih =>
    intro acc e h
    unfold dedupeFold at h
    cases hst : dedupeStep all acc g with
    | error e' =>
      rw [hst] at h
      injection h with h
      subst h
      obtain ⟨hw, he, hg, hm⟩ := dedupeStep_err hst
      exact ⟨g, List.mem_cons_self g fs, hw, he, hg, hm⟩
    | ok acc' =>
      rw [hst] at h
      obtain ⟨f, hf, rest⟩ := ih acc' e h
      exact ⟨f, List.mem_cons_of_mem g hf, rest⟩

deriving instance DecidableEq for Except

/-! ## Claim theorems -/

theorem contains_iff_mem {l : List Str} {o : Str} : l.contains o = true ↔ o ∈ l := by
  simp [List.contains, List.elem_iff]

theorem mem_filterStage {files : List File} {chosen : List Str} {f : File} :
    f ∈ filterStage files chosen ↔ f ∈ files ∧ ∀ o ∈ f.depends_on, o ∈ chosen := by
  unfold filterStage
  rw [List.mem_filter, List.all_eq_true]
  constructor
  · rintro ⟨hf, hall⟩
    exact ⟨hf, fun o ho => contains_iff_mem.mp (hall o ho)⟩
  · rintro ⟨hf, hall⟩
    exact ⟨hf, fun o ho => contains_iff_mem.mpr (hall o ho)⟩

/-- C3: the option filter retains a record iff all of its `depends_on`
entries are chosen; a record with empty `depends_on` always survives, and
with no chosen options only records with empty `depends_on` survive. -/
theorem filter_iff_subset (files : List File) (C : List Str) (f : File) :
    (f ∈ filterStage files C ↔ f ∈ files ∧ ∀ o ∈ f.depends_on, o ∈ C) ∧
    (f.depends_on = [] → f ∈ files → f ∈ filterStage files C) ∧
    (f ∈ filterStage files [] ↔ f ∈ files ∧ f.depends_on = []) := by
  refine ⟨mem_filterStage, ?_, ?_⟩
  · intro hdep hf
    exact mem_filterStage.mpr ⟨hf, fun o ho => absurd ho (by rw [hdep]; exact List.not_mem_nil o)⟩
  · rw [mem_filterStage]
    constructor
    · rintro ⟨hf, hall⟩
      refine ⟨hf, ?_⟩
      cases hdep : f.depends_on with
      | nil => rfl
      | cons o os => exact absurd (hall o (by rw [hdep]; exact List.mem_cons_self o os)) (List.not_mem_nil o)
    · rintro ⟨hf, hdep⟩
      exact ⟨hf, fun o ho => absurd ho (by rw [hdep]; exact List.not_mem_nil o)⟩

theorem filter_iff_subset_witness :
    ((⟨['a'], ['x'], []⟩ : File) ∈
        filterStage [⟨['a'], ['x'], []⟩, ⟨['b'], ['y'], [['o']]⟩] [] ↔
      (⟨['a'], ['x'], []⟩ : File) ∈ [⟨['a'], ['x'], []⟩, ⟨['b'], ['y'], [['o']]⟩] ∧
        (⟨['a'], ['x'], []⟩ : File).depends_on = []) :=
  (filter_iff_subset [⟨['a'], ['x'], []⟩, ⟨['b'], ['y'], [['o']]⟩] []
    ⟨['a'], ['x'], []⟩).2.2

/-- C7: a path in which the tag regex has no match parses to an empty
option set and is unchanged by tag stripping. -/
theorem no_group_unconditional (p : Str) (h : hasTag p = false) :
    options_in_file p = [] ∧ stripTags p = p := by
  refine ⟨?_, stripTags_eq_self_of_not_hasTag h⟩
  unfold options_in_file
  rw [findCaps_eq_none_of_not_hasTag h]

theorem no_group_unconditional_witness :
    hasTag "a.txt".toList = false ∧
      (options_in_file "a.txt".toList = [] ∧
        stripTags "a.txt".toList = "a.txt".toList) :=
  ⟨by decide, no_group_unconditional "a.txt".toList (by decide)⟩

/-- C9: path rewriting (tag stripping) is idempotent: the output of
`replace_all` has no further match, so rewriting an already-rewritten path
is a no-op. -/
theorem strip_idempotent (p : Str) : stripTags (stripTags p) = stripTags p :=
  stripTags_eq_self_of_not_hasTag (hasTag_stripTags p)

/-- C10: on success, the conflict resolver returns only filtered input
records, with exactly one record per distinct output path occurring among
the filtered records. -/
theorem resolver_output_invariant (files : List File) (chosen : List Str)
    (out : List File) (hok : dedupe_files files chosen = .ok out) :
    (∀ x ∈ out, x ∈ filterStage files chosen) ∧
    (∀ x ∈ out, ∀ y ∈ out, x.path = y.path → x = y) ∧
    (∀ f ∈ filterStage files chosen, ∃ x ∈ out, x.path = f.path) := by
  unfold dedupe_files at hok
  have hmem := dedupeFold_ok_mem (filterStage files chosen) [] out hok
  have hwin := dedupeFold_ok_winner (filterStage files chosen) [] out hok
  refine ⟨?_, ?_, ?_⟩
  · intro x hx
    rcases (hmem x).mp hx with hc | ⟨f, hf, hw⟩
    · cases hc
    · exact stepWinner_mem hf hw
  · intro x hx y hy hpath
    rcases (hmem x).mp hx with hc | ⟨f₁, hf₁, hw₁⟩
    · cases hc
    rcases (hmem y).mp hy with hc | ⟨f₂, hf₂, hw₂⟩
    · cases hc
    have hp₁ : x.path = f₁.path := stepWinner_path hf₁ hw₁
    have hp₂ : y.path = f₂.path := stepWinner_path hf₂ hw₂
    have hdet := stepWinner_det hf₁ hf₂ (by rw [← hp₁, ← hp₂, hpath])
    rw [hw₁, hw₂] at hdet
    injection hdet
  · intro f hf
    cases hw : stepWinner (filterStage files chosen) f with
    | none => exact absurd hw (hwin f hf)
    | some w =>
      exact ⟨w, (hmem w).mpr (Or.inr ⟨f, hf, hw⟩), stepWinner_path hf hw⟩

theorem resolver_output_invariant_witness :
    dedupe_files
        [⟨"c.y".toList, "1".toList, [['a']]⟩, ⟨"c.y".toList, "2".toList, [['a'], ['b']]⟩]
        [['a'], ['b']] = .ok [⟨"c.y".toList, "2".toList, [['a'], ['b']]⟩] ∧
      ((∀ x ∈ [(⟨"c.y".toList, "2".toList, [['a'], ['b']]⟩ : File)],
          x ∈ filterStage
            [⟨"c.y".toList, "1".toList, [['a']]⟩, ⟨"c.y".toList, "2".toList, [['a'], ['b']]⟩]
            [['a'], ['b']]) ∧
        (∀ x ∈ [(⟨"c.y".toList, "2".toList, [['a'], ['b']]⟩ : File)],
          ∀ y ∈ [(⟨"c.y".toList, "2".toList, [['a'], ['b']]⟩ : File)],
            x.path = y.path → x = y) ∧
        (∀ f ∈ filterStage
            [⟨"c.y".toList, "1".toList, [['a']]⟩, ⟨"c.y".toList, "2".toList, [['a'], ['b']]⟩]
            [['a'], ['b']],
          ∃ x ∈ [(⟨"c.y".toList, "2".toList, [['a'], ['b']]⟩ : File)],
            x.path = f.path)) :=
  ⟨by decide,
    resolver_output_invariant
      [⟨"c.y".toList, "1".toList, [['a']]⟩, ⟨"c.y".toList, "2".toList, [['a'], ['b']]⟩]
      [['a'], ['b']] [⟨"c.y".toList, "2".toList, [['a'], ['b']]⟩] (by decide)⟩

theorem one_lt_length_of_two_mem {l : List File} {a b : File} (ha : a ∈ l)
    (hb : b ∈ l) (hne : a ≠ b) : 1 < l.length := by
  by_contra hlen
  exact hne (mem_of_length_le_one ha hb (Nat.le_of_not_lt hlen))

/-- C2: when exactly one record of a duplicate-path group has the maximal
`depends_on` size, a successful resolution keeps that record and discards
every other record of the group. -/
theorem unique_max_kept (files : List File) (chosen : List Str) (p : Str)
    (m : File) (out : List File)
    (hok : dedupe_files files chosen = .ok out)
    (hm : m ∈ groupOf (filterStage files chosen) p)
    (hlen : 1 < (groupOf (filterStage files chosen) p).length)
    (huniq : ∀ g ∈ groupOf (filterStage files chosen) p,
      g ≠ m → g.depends_on.length < m.depends_on.length) :
    m ∈ out ∧ ∀ g ∈ groupOf (filterStage files chosen) p, g ≠ m → g ∉ out := by
  unfold dedupe_files at hok
  have hmem := dedupeFold_ok_mem (filterStage files chosen) [] out hok
  have hwin := dedupeFold_ok_winner (filterStage files chosen) [] out hok
  obtain ⟨hmall, hmp⟩ := mem_groupOf.mp hm
  have hgne : groupOf (filterStage files chosen) p ≠ [] := by
    intro hnil
    rw [hnil] at hlen
    simp at hlen
  have hmx : maxSpec (groupOf (filterStage files chosen) p) = m.depends_on.length := by
    obtain ⟨g, hg, hglen⟩ := maxSpec_mem hgne
    by_cases hgm : g = m
    · rw [← hglen, hgm]
    · have h1 := huniq g hg hgm
      have h2 := maxSpec_le hm
      omega
  have hmaxmem : m ∈ maxesOf (filterStage files chosen) p :=
    mem_maxesOf.mpr ⟨hm, hmx.symm⟩
  have hmaxonly : ∀ x ∈ maxesOf (filterStage files chosen) p, x = m := by
    intro x hx
    obtain ⟨hxg, hxlen⟩ := mem_maxesOf.mp hx
    by_contra hxm
    have := huniq x hxg hxm
    omega
  have hwm : stepWinner (filterStage files chosen) m = some m := by
    have hne := hwin m hmall
    unfold stepWinner at hne ⊢
    rw [hmp] at hne ⊢
    rw [if_pos hlen] at hne ⊢
    by_cases hml : 1 < (maxesOf (filterStage files chosen) p).length
    · rw [if_pos hml] at hne
      exact absurd rfl hne
    · rw [if_neg hml]
      have hhd : (maxesOf (filterStage files chosen) p).headD m ∈
          maxesOf (filterStage files chosen) p :=
        headD_mem m (maxesOf_ne_nil hgne)
      rw [hmaxonly _ hhd]
  constructor
  · exact (hmem m).mpr (Or.inr ⟨m, hmall, hwm⟩)
  · intro g hg hgm hgout
    rcases (hmem g).mp hgout with hc | ⟨f, hf, hw⟩
    · cases hc
    have hgp : g.path = p := (mem_groupOf.mp hg).2
    have hfp : f.path = m.path := by
      rw [← stepWinner_path hf hw, hgp, hmp]
    have hdet := stepWinner_det hf hmall hfp
    rw [hw, hwm] at hdet
    injection hdet with hdet
    exact hgm hdet

theorem unique_max_kept_witness :
    dedupe_files
        [⟨"c.y".toList, "u".toList, [['x']]⟩, ⟨"c.y".toList, "v".toList, [['x'], ['y']]⟩]
        [['x'], ['y']] = .ok [⟨"c.y".toList, "v".toList, [['x'], ['y']]⟩] ∧
      ((⟨"c.y".toList, "v".toList, [['x'], ['y']]⟩ : File) ∈
          [(⟨"c.y".toList, "v".toList, [['x'], ['y']]⟩ : File)] ∧
        ∀ g ∈ groupOf
            (filterStage
              [⟨"c.y".toList, "u".toList, [['x']]⟩, ⟨"c.y".toList, "v".toList, [['x'], ['y']]⟩]
              [['x'], ['y']]) "c.y".toList,
          g ≠ ⟨"c.y".toList, "v".toList, [['x'], ['y']]⟩ →
            g ∉ [(⟨"c.y".toList, "v".toList, [['x'], ['y']]⟩ : File)]) :=
  ⟨by decide,
    unique_max_kept
      [⟨"c.y".toList, "u".toList, [['x']]⟩, ⟨"c.y".toList, "v".toList, [['x'], ['y']]⟩]
      [['x'], ['y']] "c.y".toList ⟨"c.y".toList, "v".toList, [['x'], ['y']]⟩
      [⟨"c.y".toList, "v".toList, [['x'], ['y']]⟩]
      (by decide) (by decide) (by decide) (by decide)⟩

/-- C1: when more than one filtered record of a duplicate-path group ties
at the maximal `depends_on` size, `dedupe_files` aborts with
`AmbiguousConflict` naming a conflicting path (the first one encountered),
and the whole run writes nothing and exits with code 1. -/
theorem ambiguous_tie_aborts_run (entries : List (Str × Str)) (chosen : List Str)
    (p : Str) (m₁ m₂ : File)
    (h₁ : m₁ ∈ maxesOf (filterStage (read_files_from_path entries) chosen) p)
    (h₂ : m₂ ∈ maxesOf (filterStage (read_files_from_path entries) chosen) p)
    (hne : m₁ ≠ m₂) :
    ∃ q, dedupe_files (read_files_from_path entries) chosen =
        .error (.ambiguousConflict q) ∧
      1 < (maxesOf (filterStage (read_files_from_path entries) chosen) q).length ∧
      (∀ (outDir : Option (List Str)) (tr orr : Str),
        runScaf true true entries chosen outDir tr orr =
          .error (.ambiguousConflict q)) ∧
      (∀ (tE cO : Bool) (outDir : Option (List Str)) (tr orr : Str),
        writtenFiles (runScaf tE cO entries chosen outDir tr orr) = [] ∧
        exitCode (runScaf tE cO entries chosen outDir tr orr) = 1) := by
  have hml : 1 < (maxesOf (filterStage (read_files_from_path entries) chosen) p).length :=
    one_lt_length_of_two_mem h₁ h₂ hne
  obtain ⟨hm₁g, hm₁max⟩ := mem_maxesOf.mp h₁
  obtain ⟨hm₁all, hm₁p⟩ := mem_groupOf.mp hm₁g
  have hgl : 1 < (groupOf (filterStage (read_files_from_path entries) chosen) p).length := by
    have hle : (maxesOf (filterStage (read_files_from_path entries) chosen) p).length ≤
        (groupOf (filterStage (read_files_from_path entries) chosen) p).length := by
      unfold maxesOf
      exact List.length_filter_le _ _
    omega
  cases hded : dedupe_files (read_files_from_path entries) chosen with
  | ok out =>
    exfalso
    unfold dedupe_files at hded
    have hwin := dedupeFold_ok_winner _ [] out hded m₁ hm₁all
    unfold stepWinner at hwin
    rw [hm₁p, if_pos hgl, if_pos hml] at hwin
    exact hwin rfl
  | error e =>
    have hded0 := hded
    unfold dedupe_files at hded
    obtain ⟨f, hf, hwn, he, hgf, hmf⟩ := dedupeFold_err _ [] e hded
    have hhd : (maxesOf (filterStage (read_files_from_path entries) chosen) f.path).headD f ∈
        maxesOf (filterStage (read_files_from_path entries) chosen) f.path :=
      headD_mem f (by intro hnil; rw [hnil] at hmf; simp at hmf)
    have hq : ((maxesOf (filterStage (read_files_from_path entries) chosen) f.path).headD f).path
        = f.path :=
      (mem_groupOf.mp (mem_maxesOf.mp hhd).1).2
    have he' : e = .ambiguousConflict f.path := by rw [he, hq]
    refine ⟨f.path, by rw [he'], by exact hmf, ?_, ?_⟩
    · intro outDir tr orr
      rw [← he']
      simp [runScaf, hded0]
    · intro tE cO outDir tr orr
      cases tE
      · simp [runScaf, writtenFiles, exitCode]
      · cases cO
        · simp [runScaf, writtenFiles, exitCode]
        · simp [runScaf, hded0, writtenFiles, exitCode]

theorem ambiguous_tie_aborts_run_witness :
    (⟨"t/c.y".toList, "1".toList, [['a']]⟩ : File) ∈
        maxesOf
          (filterStage
            (read_files_from_path
              [("t/c".toList ++ '{' :: 'a' :: '}' :: ".y".toList, "1".toList),
               ("t/c".toList ++ '{' :: 'b' :: '}' :: ".y".toList, "2".toList)])
            [['a'], ['b']]) "t/c.y".toList ∧
      ∃ q, dedupe_files
          (read_files_from_path
            [("t/c".toList ++ '{' :: 'a' :: '}' :: ".y".toList, "1".toList),
             ("t/c".toList ++ '{' :: 'b' :: '}' :: ".y".toList, "2".toList)])
          [['a'], ['b']] = .error (.ambiguousConflict q) ∧
        1 < (maxesOf
          (filterStage
            (read_files_from_path
              [("t/c".toList ++ '{' :: 'a' :: '}' :: ".y".toList, "1".toList),
               ("t/c".toList ++ '{' :: 'b' :: '}' :: ".y".toList, "2".toList)])
            [['a'], ['b']]) q).length ∧
        (∀ (outDir : Option (List Str)) (tr orr : Str),
          runScaf true true
            [("t/c".toList ++ '{' :: 'a' :: '}' :: ".y".toList, "1".toList),
             ("t/c".toList ++ '{' :: 'b' :: '}' :: ".y".toList, "2".toList)]
            [['a'], ['b']] outDir tr orr = .error (.ambiguousConflict q)) ∧
        (∀ (tE cO : Bool) (outDir : Option (List Str)) (tr orr : Str),
          writtenFiles (runScaf tE cO
            [("t/c".toList ++ '{' :: 'a' :: '}' :: ".y".toList, "1".toList),
             ("t/c".toList ++ '{' :: 'b' :: '}' :: ".y".toList, "2".toList)]
            [['a'], ['b']] outDir tr orr) = [] ∧
          exitCode (runScaf tE cO
            [("t/c".toList ++ '{' :: 'a' :: '}' :: ".y".toList, "1".toList),
             ("t/c".toList ++ '{' :: 'b' :: '}' :: ".y".toList, "2".toList)]
            [['a'], ['b']] outDir tr orr) = 1) :=
  ⟨by decide,
    ambiguous_tie_aborts_run
      [("t/c".toList ++ '{' :: 'a' :: '}' :: ".y".toList, "1".toList),
       ("t/c".toList ++ '{' :: 'b' :: '}' :: ".y".toList, "2".toList)]
      [['a'], ['b']] "t/c.y".toList
      ⟨"t/c.y".toList, "1".toList, [['a']]⟩
      ⟨"t/c.y".toList, "2".toList, [['b']]⟩
      (by decide) (by decide) (by decide)⟩

/-- C8: in a run whose earlier stages succeed, a non-empty output directory
aborts the run with `OutputNotEmpty` and exit code 1 before anything is
written, while an absent output directory is created and the run proceeds
exactly as with an empty one. -/
theorem output_dir_guard (entries : List (Str × Str)) (chosen : List Str)
    (l : List Str) (tr orr : Str) (d : List File)
    (hd : dedupe_files (read_files_from_path entries) chosen = .ok d) :
    (l ≠ [] →
      runScaf true true entries chosen (some l) tr orr = .error .outputNotEmpty ∧
      writtenFiles (runScaf true true entries chosen (some l) tr orr) = [] ∧
      exitCode (runScaf true true entries chosen (some l) tr orr) = 1) ∧
    runScaf true true entries chosen none tr orr =
      runScaf true true entries chosen (some []) tr orr := by
  constructor
  · intro hl
    have hlen : l.length ≠ 0 := by
      intro hc
      exact hl (List.length_eq_zero.mp hc)
    have hrun : runScaf true true entries chosen (some l) tr orr =
        .error .outputNotEmpty := by
      unfold runScaf
      rw [if_neg (by decide), if_neg (by decide), hd]
      simp [hlen]
    exact ⟨hrun, by rw [hrun]; rfl, by rw [hrun]; rfl⟩
  · unfold runScaf
    rw [if_neg (by decide), if_neg (by decide), hd]
    simp

theorem output_dir_guard_witness :
    (dedupe_files (read_files_from_path [("t/a".toList, "x".toList)]) [] =
        .ok [⟨"t/a".toList, "x".toList, []⟩]) ∧
      ["z".toList] ≠ [] ∧
      ((["z".toList] ≠ [] →
        runScaf true true [("t/a".toList, "x".toList)] [] (some ["z".toList])
            "t".toList "o".toList = .error .outputNotEmpty ∧
        writtenFiles (runScaf true true [("t/a".toList, "x".toList)] []
            (some ["z".toList]) "t".toList "o".toList) = [] ∧
        exitCode (runScaf true true [("t/a".toList, "x".toList)] []
            (some ["z".toList]) "t".toList "o".toList) = 1) ∧
      runScaf true true [("t/a".toList, "x".toList)] [] none "t".toList "o".toList =
        runScaf true true [("t/a".toList, "x".toList)] [] (some []) "t".toList
          "o".toList) :=
  ⟨by decide, by decide,
    output_dir_guard [("t/a".toList, "x".toList)] [] ["z".toList] "t".toList
      "o".toList [⟨"t/a".toList, "x".toList, []⟩] (by decide)⟩

theorem firstLine_subset {x : Char} {s : Str} (h : x ∈ firstLine s) : x ∈ s := by
  induction s with
  | nil => cases h
  | cons c cs ih =>
    by_cases hnl : c = '\n'
    · subst hnl
      rw [firstLine_cons_nl] at h
      cases h
    · rw [firstLine_cons_of_ne hnl] at h
      rcases List.mem_cons.mp h with rfl | h'
      · exact List.mem_cons_self x cs
      · exact List.mem_cons_of_mem c (ih h')

theorem hasTag_of_no_rbrace {s : Str} (h : '}' ∉ s) : hasTag s = false := by
  induction s with
  | nil => rfl
  | cons c cs ih =>
    have hcs : '}' ∉ cs := fun hm => h (List.mem_cons_of_mem c hm)
    by_cases hc : c = '{'
    · subst hc
      rw [hasTag_brace, tagStart_of_none
        (splitLastRB_eq_none.mpr fun hm => hcs (firstLine_subset hm)), ih hcs]
      rfl
    · rw [hasTag_cons_of_ne cs hc]
      exact ih hcs

theorem hasTag_append_no_brace {a : Str} (s : Str) (h : '{' ∉ a) :
    hasTag (a ++ s) = hasTag s := by
  induction a with
  | nil => rfl
  | cons c a ih =>
    have hc : c ≠ '{' := fun hh => h (hh ▸ List.mem_cons_self c a)
    rw [List.cons_append, hasTag_cons_of_ne _ hc]
    exact ih fun hm => h (List.mem_cons_of_mem c hm)

theorem findCaps_append_no_brace {a : Str} (s : Str) (h : '{' ∉ a) :
    findCaps (a ++ s) = findCaps s := by
  induction a with
  | nil => rfl
  | cons c a ih =>
    have hc : c ≠ '{' := fun hh => h (hh ▸ List.mem_cons_self c a)
    rw [List.cons_append, findCaps_cons_of_ne _ hc]
    exact ih fun hm => h (List.mem_cons_of_mem c hm)

/-- C4 counterexample: the path `a\x7b\x7d.txt` contains an empty brace group,
but the parser returns the empty option set — not, as the claim states, the
set whose single element is the empty string. -/
theorem empty_group_cex :
    options_in_file ('a' :: '{' :: '}' :: ".txt".toList) = [] ∧
      ([] : List Str) ≠ [[]] :=
  ⟨by decide, by decide⟩

/-- C4 amended: the tag regex requires at least one character between the
braces, so an empty group — with no opening brace before it and no closing
brace after it — is not recognised at all: the option set is empty and the
braces are not even stripped.  (A later opening brace is harmless: with no
closing brace after the group no match can start anywhere.) -/
theorem empty_group_not_matched (a c : Str) (ha : '{' ∉ a) (hc1 : '}' ∉ c) :
    options_in_file (a ++ '{' :: '}' :: c) = [] ∧
      stripTags (a ++ '{' :: '}' :: c) = a ++ '{' :: '}' :: c := by
  have hcnone : splitLastRB c = none :=
    splitLastRB_eq_none.mpr fun hm => hc1 (firstLine_subset hm)
  have hsp : splitLastRB ('}' :: c) = some ([], c) := by
    simp only [splitLastRB]
    rw [if_neg (by decide), hcnone]
    simp
  have hts : tagStart ('}' :: c) = false := by
    unfold tagStart
    rw [hsp]
    rfl
  have htag : hasTag (a ++ '{' :: '}' :: c) = false := by
    rw [hasTag_append_no_brace _ ha, hasTag_brace, hts,
      hasTag_cons_of_ne _ (by decide), hasTag_of_no_rbrace hc1]
    rfl
  exact ⟨by unfold options_in_file; rw [findCaps_eq_none_of_not_hasTag htag],
    stripTags_eq_self_of_not_hasTag htag⟩

theorem empty_group_not_matched_witness :
    ('{' ∉ "a".toList ∧ '}' ∉ ".txt".toList) ∧
      (options_in_file ("a".toList ++ '{' :: '}' :: ".txt".toList) = [] ∧
        stripTags ("a".toList ++ '{' :: '}' :: ".txt".toList) =
          "a".toList ++ '{' :: '}' :: ".txt".toList) :=
  ⟨by decide,
    empty_group_not_matched "a".toList ".txt".toList (by decide) (by decide)⟩

theorem options_in_file_of_caps {p m : Str} (h : findCaps p = some m) :
    options_in_file p = (splitComma (trimBraces m)).dedup := by
  unfold options_in_file
  rw [h]

/-- Trimming a full match whose body neither starts nor ends with a brace
removes exactly the two enclosing braces. -/
theorem trimBraces_wrap {body : Str} {x : Char} {M : Str} {y : Char} {t : Str}
    (hbody : body = x :: M) (hx : isBrace x = false)
    (hrev : body.reverse = y :: t) (hy : isBrace y = false) :
    trimBraces ('{' :: (body ++ ['}'])) = body := by
  unfold trimBraces
  rw [List.dropWhile_cons, if_pos (by decide : isBrace '{' = true)]
  rw [hbody, List.cons_append, List.dropWhile_cons, if_neg (by simp [hx])]
  rw [← List.cons_append, ← hbody, List.reverse_append,
    (by rfl : (['}'] : Str).reverse = ['}']), List.singleton_append]
  rw [List.dropWhile_cons, if_pos (by decide : isBrace '}' = true)]
  rw [hrev, List.dropWhile_cons, if_neg (by simp [hy]), ← hrev,
    List.reverse_reverse]

/-- C5 counterexample: on the path `a\x7bx\x7db\x7by\x7d` the claim predicts the
option set `\x7b"x"\x7d` (the tokens of the first group), but the greedy regex
matches from the first opening brace to the last closing brace, so the
parser returns the single token `x\x7db\x7by`. -/
theorem multi_group_cex :
    options_in_file ('a' :: '{' :: 'x' :: '}' :: 'b' :: '{' :: 'y' :: '}' :: []) =
        [('x' :: '}' :: 'b' :: '{' :: 'y' :: [])] ∧
      ('x' :: '}' :: 'b' :: '{' :: 'y' :: []) ≠ ['x'] :=
  ⟨by decide, by decide⟩

/-- C5 amended: for a path `a\x7bg₁\x7db\x7bg₂\x7dc` with two groups on one line (no
opening brace before the first group, group contents brace- and
newline-free and nonempty, the connecting text newline-free, and no closing
brace afterwards), the single greedy match spans from the first `\x7b` to the
last `\x7d`; the returned option set is the comma-split of everything in
between — `g₁\x7db\x7bg₂` — and not the tokens of the first group alone. -/
theorem multi_group_greedy (a g₁ b g₂ c : Str)
    (ha : '{' ∉ a) (hg₁ne : g₁ ≠ []) (hg₁l : '{' ∉ g₁) (hg₁r : '}' ∉ g₁)
    (hg₁n : '\n' ∉ g₁) (hbn : '\n' ∉ b) (hg₂ne : g₂ ≠ []) (hg₂l : '{' ∉ g₂)
    (hg₂r : '}' ∉ g₂) (hg₂n : '\n' ∉ g₂) (hc : '}' ∉ c) :
    options_in_file (a ++ '{' :: (g₁ ++ '}' :: (b ++ '{' :: (g₂ ++ '}' :: c)))) =
      (splitComma (g₁ ++ '}' :: (b ++ '{' :: g₂))).dedup := by
  have hX : g₁ ++ '}' :: (b ++ '{' :: (g₂ ++ '}' :: c)) =
      (g₁ ++ '}' :: (b ++ '{' :: g₂)) ++ '}' :: c := by
    simp [List.append_assoc]
  have hnlb : '\n' ∉ g₁ ++ '}' :: (b ++ '{' :: g₂) := by
    intro hm
    rcases List.mem_append.mp hm with h | h
    · exact hg₁n h
    rcases List.mem_cons.mp h with h | h
    · exact absurd h (by decide)
    rcases List.mem_append.mp h with h | h
    · exact hbn h
    rcases List.mem_cons.mp h with h | h
    · exact absurd h (by decide)
    · exact hg₂n h
  have hsplit : splitLastRB (g₁ ++ '}' :: (b ++ '{' :: (g₂ ++ '}' :: c))) =
      some (g₁ ++ '}' :: (b ++ '{' :: g₂), c) := by
    rw [hX]
    exact splitLastRB_of_decomp hnlb fun hm => hc (firstLine_subset hm)
  have hbody_ne : g₁ ++ '}' :: (b ++ '{' :: g₂) ≠ [] := by
    cases g₁ <;> simp
  have hcaps : findCaps (a ++ '{' :: (g₁ ++ '}' :: (b ++ '{' :: (g₂ ++ '}' :: c)))) =
      some ('{' :: ((g₁ ++ '}' :: (b ++ '{' :: g₂)) ++ ['}'])) := by
    rw [findCaps_append_no_brace _ ha]
    exact findCaps_brace_match hsplit hbody_ne
  obtain ⟨x, g₁', hg₁eq⟩ : ∃ x g₁', g₁ = x :: g₁' := by
    cases g₁ with
    | nil => exact absurd rfl hg₁ne
    | cons x t => exact ⟨x, t, rfl⟩
  have hx₁ : x ∈ g₁ := hg₁eq ▸ List.mem_cons_self x g₁'
  have hxb : isBrace x = false := by
    have h1 : x ≠ '{' := fun hh => hg₁l (hh ▸ hx₁)
    have h2 : x ≠ '}' := fun hh => hg₁r (hh ▸ hx₁)
    simp [isBrace, h1, h2]
  obtain ⟨z, zs, hg₂rev⟩ : ∃ z zs, g₂.reverse = z :: zs := by
    cases hr : g₂.reverse with
    | nil => exact absurd (by simpa using congrArg List.reverse hr) hg₂ne
    | cons z zs => exact ⟨z, zs, rfl⟩
  have hz₂ : z ∈ g₂ := List.mem_reverse.mp (hg₂rev ▸ List.mem_cons_self z zs)
  have hzb : isBrace z = false := by
    have h1 : z ≠ '{' := fun hh => hg₂l (hh ▸ hz₂)
    have h2 : z ≠ '}' := fun hh => hg₂r (hh ▸ hz₂)
    simp [isBrace, h1, h2]
  have hbr : (g₁ ++ '}' :: (b ++ '{' :: g₂)).reverse =
      z :: (zs ++ '{' :: (b.reverse ++ '}' :: g₁.reverse)) := by
    rw [(by simp [List.append_assoc] :
      (g₁ ++ '}' :: (b ++ '{' :: g₂)).reverse =
        g₂.reverse ++ '{' :: (b.reverse ++ '}' :: g₁.reverse)), hg₂rev,
      List.cons_append]
  have hbodyx : g₁ ++ '}' :: (b ++ '{' :: g₂) =
      x :: (g₁' ++ '}' :: (b ++ '{' :: g₂)) := by
    rw [hg₁eq, List.cons_append]
  rw [options_in_file_of_caps hcaps, trimBraces_wrap hbodyx hxb hbr hzb]

theorem multi_group_greedy_witness :
    ('{' ∉ ['a'] ∧ ['x'] ≠ ([] : Str) ∧ ['y'] ≠ ([] : Str) ∧ '}' ∉ ([] : Str)) ∧
      options_in_file (['a'] ++ '{' :: (['x'] ++ '}' :: (['b'] ++ '{' :: (['y'] ++ '}' :: [])))) =
        (splitComma (['x'] ++ '}' :: (['b'] ++ '{' :: ['y']))).dedup :=
  ⟨by decide,
    multi_group_greedy ['a'] ['x'] ['b'] ['y'] [] (by decide) (by decide)
      (by decide) (by decide) (by decide) (by decide) (by decide) (by decide)
      (by decide) (by decide) (by decide)⟩

/-- C6 counterexample: `t/scaf.toml.bak` is not the config file
`t/scaf.toml`, yet discovery excludes it, because the source skips every
path *containing* the substring `scaf.toml`. -/
theorem config_exclusion_cex :
    read_files_from_path [("t/scaf.toml.bak".toList, "x".toList)] = [] ∧
      "t/scaf.toml.bak".toList ≠ "t/scaf.toml".toList :=
  ⟨by decide, by decide⟩

/-- C6 amended: a discovered entry is excluded from the assembled file set
iff its path contains `scaf.toml` as a substring — which excludes the
config file itself, but also any other path containing that substring. -/
theorem discovery_excludes_substring (entries : List (Str × Str)) (f : File) :
    f ∈ read_files_from_path entries ↔
      ∃ p c, (p, c) ∈ entries ∧ containsSub scafToml p = false ∧
        f = create_file p c (options_in_file p) := by
  unfold read_files_from_path
  rw [List.mem_filterMap]
  constructor
  · rintro ⟨⟨p, c⟩, hmem, hf⟩
    by_cases hc : containsSub scafToml p = true
    · rw [if_pos hc] at hf
      cases hf
    · rw [if_neg hc] at hf
      injection hf with hf
      exact ⟨p, c, hmem, Bool.not_eq_true _ ▸ (by simpa using hc), hf.symm⟩
  · rintro ⟨p, c, hmem, hc, rfl⟩
    refine ⟨(p, c), hmem, ?_⟩
    rw [if_neg (by simp [hc])]
